import Mathlib

/-!
Verification of the mkulid specification against a shallow embedding of the
program.  The repository's own `src/main.rs` is thin CLI glue over a ULID
core (codec + monotonic generator); the core itself is not part of the
repository's sources, so its operations are modelled from the specification
(each such definition's doc comment starts with `Modelled from the spec:`).
The CLI-side functions `resolve_timestamp` and `generate_ulids` are embedded
from `src/main.rs` directly.

A ULID value is modelled as a natural number below 2^128, logically
`(timestamp <<< 80) ||| random` with a 48-bit timestamp and an 80-bit
random payload.
-/

namespace MkUlid

/-- Modelled from the spec: the error taxonomy of the core (spec section 7):
InvalidLength, InvalidCharacter, Overflow, TimestampOverflow, RandomOverflow. -/
inductive UlidError where
  | invalidLength
  | invalidCharacter
  | overflow
  | timestampOverflow
  | randomOverflow
deriving DecidableEq, Repr

/-- Modelled from the spec: the Crockford base-32 alphabet
0123456789ABCDEFGHJKMNPQRSTVWXYZ (excludes I, L, O, U). -/
def crockfordAlphabet : List Char :=
  ['0', '1', '2', '3', '4', '5', '6', '7', '8', '9',
   'A', 'B', 'C', 'D', 'E', 'F', 'G', 'H', 'J', 'K', 'M', 'N',
   'P', 'Q', 'R', 'S', 'T', 'V', 'W', 'X', 'Y', 'Z']

/-- Character used to render a 5-bit digit (encoding is uppercase). -/
def charOfDigit (d : Nat) : Char := crockfordAlphabet.getD d '0'

/-- Modelled from the spec: case-insensitive decoding table; both letter
cases map to the same 5-bit value, and the excluded letters I, L, O, U are
absent in either case. -/
def digitTable : List (Char × Nat) :=
  [('0', 0), ('1', 1), ('2', 2), ('3', 3), ('4', 4),
   ('5', 5), ('6', 6), ('7', 7), ('8', 8), ('9', 9),
   ('A', 10), ('B', 11), ('C', 12), ('D', 13), ('E', 14), ('F', 15),
   ('G', 16), ('H', 17), ('J', 18), ('K', 19), ('M', 20), ('N', 21),
   ('P', 22), ('Q', 23), ('R', 24), ('S', 25), ('T', 26), ('V', 27),
   ('W', 28), ('X', 29), ('Y', 30), ('Z', 31),
   ('a', 10), ('b', 11), ('c', 12), ('d', 13), ('e', 14), ('f', 15),
   ('g', 16), ('h', 17), ('j', 18), ('k', 19), ('m', 20), ('n', 21),
   ('p', 22), ('q', 23), ('r', 24), ('s', 25), ('t', 26), ('v', 27),
   ('w', 28), ('x', 29), ('y', 30), ('z', 31)]

/-- Case-insensitive 5-bit value of a character, `none` outside the alphabet. -/
def digitOfChar (c : Char) : Option Nat := digitTable.lookup c

/-- Big-endian base-32 digit expansion: `natToDigits k n` is the list of the
`k` base-32 digits of `n`, most significant first. -/
def natToDigits : Nat → Nat → List Nat
  | 0, _ => []
  | k + 1, n => n / 32 ^ k :: natToDigits k (n % 32 ^ k)

/-- Value of a big-endian base-32 digit list. -/
def digitsToNat (ds : List Nat) : Nat := ds.foldl (fun a d => a * 32 + d) 0

/-- Modelled from the spec: `encode(value) -> 26-char string`; each 5-bit
group of the 128-bit value maps to one base-32 character, 26 characters in
total (the top character carries only the top 2 bits). -/
def encode (v : Nat) : String := ⟨(natToDigits 26 v).map charOfDigit⟩

/-- Maps characters to 5-bit digits, failing with InvalidCharacter on the
first character outside the (case-insensitive) alphabet. -/
def decodeDigits : List Char → Except UlidError (List Nat)
  | [] => .ok []
  | c :: cs =>
    match digitOfChar c with
    | none => .error .invalidCharacter
    | some d =>
      match decodeDigits cs with
      | .error e => .error e
      | .ok ds => .ok (d :: ds)

/-- Modelled from the spec: `decode(text) -> 128-bit int`; fails with
InvalidLength unless the input is exactly 26 characters, with
InvalidCharacter when a character is outside the base-32 alphabet
(case-insensitive), and with Overflow when the first character's 5-bit
value is 8 or more (the decoded value would exceed 128 bits). -/
def decode (s : String) : Except UlidError Nat :=
  if s.toList.length ≠ 26 then .error .invalidLength
  else
    match decodeDigits s.toList with
    | .error e => .error e
    | .ok ds => if 8 ≤ ds.headD 0 then .error .overflow else .ok (digitsToNat ds)

/-- Character-by-character uppercase rendering of a string. -/
def upperStr (s : String) : String := ⟨s.toList.map Char.toUpper⟩

/-- Character-by-character lowercase rendering of a string. -/
def lowerStr (s : String) : String := ⟨s.toList.map Char.toLower⟩

/-- Embedded from src/main.rs (generate_ulids, lines 109-115): the printed
form is `ulid.to_string()`, lowered character-wise when `--lowercase` is
set. -/
def formatUlid (v : Nat) (lowercase : Bool) : String :=
  if lowercase then lowerStr (encode v) else encode v

/-- Timestamp field of a ULID value: the bits above the 80 random bits. -/
def ulidTimestamp (v : Nat) : Nat := v / 2 ^ 80

/-- Random field of a ULID value: the low 80 bits. -/
def ulidRandom (v : Nat) : Nat := v % 2 ^ 80

/-- Modelled from the spec: `join(timestamp, random)` fails with
TimestampOverflow if the timestamp exceeds 2^48 - 1, otherwise is the pure
composition `(timestamp <<< 80) ||| random` (written arithmetically; the
two coincide for an 80-bit random field, see `join_eq_or`). -/
def join (t r : Nat) : Except UlidError Nat :=
  if 2 ^ 48 ≤ t then .error .timestampOverflow else .ok (t * 2 ^ 80 + r)

/-- Modelled from the spec: one `generate` step of the monotonic generator
(spec section 4.2).  State is the `previous` value (`none` initially); the
caller injects the fresh 80-bit random payload `rand` (masked to 80 bits).
A fresh payload is used when there is no previous value or the requested
timestamp is newer; otherwise the previous value's random field is
incremented by one, failing with RandomOverflow when it is already
2^80 - 1 (the clock-regression policy is clamp-and-increment).  The pair
returned is (new state, result); on failure the state is unchanged. -/
def generate (prev : Option Nat) (req rand : Nat) :
    Option Nat × Except UlidError Nat :=
  match prev with
  | none =>
    match join req (rand % 2 ^ 80) with
    | .ok v => (some v, .ok v)
    | .error e => (none, .error e)
  | some p =>
    if ulidTimestamp p < req then
      match join req (rand % 2 ^ 80) with
      | .ok v => (some v, .ok v)
      | .error e => (some p, .error e)
    else
      if ulidRandom p = 2 ^ 80 - 1 then (some p, .error .randomOverflow)
      else (some (p + 1), .ok (p + 1))

/-- Runs a sequence of `generate` calls, one per (requested timestamp,
injected random payload) pair, threading the generator state and collecting
the produced values; stops at the first failure. -/
def runGen (prev : Option Nat) :
    List (Nat × Nat) → Option Nat × Except UlidError (List Nat)
  | [] => (prev, .ok [])
  | (req, rand) :: rest =>
    match generate prev req rand with
    | (st, .ok v) =>
      match runGen st rest with
      | (st', .ok vs) => (st', .ok (v :: vs))
      | (st', .error e) => (st', .error e)
    | (st, .error e) => (st, .error e)

/-- Embedded from src/main.rs (resolve_timestamp, lines 133-146): once the
RFC 3339 string has been parsed (by the external chrono crate) into a
signed millisecond timestamp, a negative value is rejected before reaching
the generator, and a non-negative value resolves to UNIX_EPOCH plus that
many milliseconds (a SystemTime is modelled as milliseconds since the
epoch). -/
def resolveDatetimeMillis (millis : Int) : Except String Nat :=
  if millis < 0 then .error "datetime is before the Unix epoch, which ULIDs cannot represent"
  else .ok millis.toNat

/-- Timestamp used by one loop iteration of generate_ulids: the pinned time
when one was resolved, the wall clock reading otherwise. -/
def pinOr (pin : Option Nat) (clock : Nat → Nat) (i : Nat) : Nat :=
  match pin with
  | some t => t
  | none => clock i

/-- Embedded from src/main.rs (generate_ulids, lines 95-119): the loop body,
counting down the remaining count; `pin` is the resolved pinned time,
`clock` and `rand` are the injected wall clock and random source (indexed
by call number `i`), `st` the generator state. -/
def genUlidsGo (pin : Option Nat) (clock rand : Nat → Nat) (lowercase : Bool) :
    Nat → Nat → Option Nat → Except UlidError (List String)
  | 0, _, _ => .ok []
  | n + 1, i, st =>
    match generate st (pinOr pin clock i) (rand i) with
    | (_, .error e) => .error e
    | (st', .ok v) =>
      match genUlidsGo pin clock rand lowercase n (i + 1) st' with
      | .error e => .error e
      | .ok rest => .ok (formatUlid v lowercase :: rest)

/-- Embedded from src/main.rs (generate_ulids, lines 95-119): creates a
fresh generator and produces `count` formatted ULIDs, one per output line. -/
def generate_ulids (count : Nat) (pin : Option Nat) (clock rand : Nat → Nat)
    (lowercase : Bool) : Except UlidError (List String) :=
  genUlidsGo pin clock rand lowercase count 0 none

/-! Positional base-32 arithmetic lemmas for the codec. -/

/-- Folding digits from a nonzero accumulator shifts the result by the
place value of the accumulator. -/
theorem foldl_base_shift (ds : List Nat) (a : Nat) :
    ds.foldl (fun x d => x * 32 + d) a
      = a * 32 ^ ds.length + ds.foldl (fun x d => x * 32 + d) 0 := by
  induction ds generalizing a with
  | nil => simp
  | cons d ds ih =>
    simp only [List.foldl_cons, List.length_cons]
    rw [ih (a * 32 + d), ih (0 * 32 + d)]
    ring

/-- Cons form of `digitsToNat`. -/
theorem digitsToNat_cons (d : Nat) (ds : List Nat) :
    digitsToNat (d :: ds) = d * 32 ^ ds.length + digitsToNat ds := by
  have h0 : (0 : Nat) * 32 + d = d := by omega
  simp only [digitsToNat, List.foldl_cons, h0]
  exact foldl_base_shift ds d

/-- The digit expansion has exactly the requested width. -/
theorem natToDigits_length : ∀ (k n : Nat), (natToDigits k n).length = k
  | 0, _ => rfl
  | k + 1, n => by simp [natToDigits, natToDigits_length k]

/-- Reassembling the digit expansion of `n` gives back `n`. -/
theorem digitsToNat_natToDigits :
    ∀ (k n : Nat), n < 32 ^ k → digitsToNat (natToDigits k n) = n
  | 0, n, h => by
    simp only [pow_zero, Nat.lt_one_iff] at h
    simp [natToDigits, digitsToNat, h]
  | k + 1, n, h => by
    rw [natToDigits, digitsToNat_cons, natToDigits_length,
      digitsToNat_natToDigits k (n % 32 ^ k) (Nat.mod_lt n (Nat.pos_pow_of_pos k (by omega)))]
    rw [Nat.mul_comm]
    exact Nat.div_add_mod n (32 ^ k)

/-- Every digit of the expansion is below the base. -/
theorem natToDigits_all_lt :
    ∀ (k n : Nat), n < 32 ^ k → ∀ d ∈ natToDigits k n, d < 32
  | 0, _, _, _, hd => by simp [natToDigits] at hd
  | k + 1, n, h, d, hd => by
    rw [natToDigits] at hd
    rcases List.mem_cons.1 hd with h1 | h1
    · subst h1
      have : n < 32 ^ k * 32 := by rw [← pow_succ]; exact h
      exact Nat.div_lt_of_lt_mul this
    · exact natToDigits_all_lt k (n % 32 ^ k)
        (Nat.mod_lt n (Nat.pos_pow_of_pos k (by omega))) d h1

/-- A list of digits below the base has value below its place bound. -/
theorem digitsToNat_lt :
    ∀ (ds : List Nat), (∀ d ∈ ds, d < 32) → digitsToNat ds < 32 ^ ds.length
  | [], _ => by simp [digitsToNat]
  | d :: ds, h => by
    rw [digitsToNat_cons, List.length_cons, pow_succ]
    have h1 : d * 32 ^ ds.length ≤ 31 * 32 ^ ds.length :=
      Nat.mul_le_mul_right _ (by have := h d (List.mem_cons_self d ds); omega)
    have h2 : digitsToNat ds < 32 ^ ds.length :=
      digitsToNat_lt ds (fun x hx => h x (List.mem_cons_of_mem d hx))
    omega

/-- The digit expansion of a reassembled digit list gives back the list. -/
theorem natToDigits_digitsToNat :
    ∀ (ds : List Nat) (k : Nat), ds.length = k → (∀ d ∈ ds, d < 32) →
      natToDigits k (digitsToNat ds) = ds
  | [], 0, _, _ => rfl
  | d :: ds, k + 1, hk, h => by
    have hL : ds.length = k := by simpa using hk
    have hR : digitsToNat ds < 32 ^ k :=
      hL ▸ digitsToNat_lt ds (fun x hx => h x (List.mem_cons_of_mem d hx))
    have hval : digitsToNat (d :: ds) = 32 ^ k * d + digitsToNat ds := by
      rw [digitsToNat_cons, hL, Nat.mul_comm]
    rw [natToDigits, hval]
    have hdiv : (32 ^ k * d + digitsToNat ds) / 32 ^ k = d := by
      rw [Nat.mul_add_div (Nat.pos_pow_of_pos k (by omega)),
        Nat.div_eq_of_lt hR, Nat.add_zero]
    have hmod : (32 ^ k * d + digitsToNat ds) % 32 ^ k = digitsToNat ds := by
      rw [Nat.mul_add_mod, Nat.mod_eq_of_lt hR]
    rw [hdiv, hmod, natToDigits_digitsToNat ds k hL
      (fun x hx => h x (List.mem_cons_of_mem d hx))]

/-! Character-level lemmas about the Crockford alphabet, all established by
finite computation over the alphabet and the decoding table. -/

/-- Decoding the character of a 5-bit digit gives back the digit. -/
theorem digitOfChar_charOfDigit : ∀ d, d < 32 → digitOfChar (charOfDigit d) = some d := by
  decide

/-- A successful lookup key-value pair is a member of the table. -/
theorem lookup_mem {c : Char} {d : Nat} :
    ∀ (l : List (Char × Nat)), l.lookup c = some d → (c, d) ∈ l
  | [], h => by simp at h
  | (k, v) :: l, h => by
    rw [List.lookup_cons] at h
    cases hck : c == k with
    | true =>
      rw [hck] at h
      have hk : c = k := by exact eq_of_beq hck
      have hv : v = d := by simpa using h
      simp [hk, hv]
    | false =>
      rw [hck] at h
      exact List.mem_cons_of_mem _ (lookup_mem l h)

/-- Every table entry has a 5-bit value, renders back (via `charOfDigit`) as
the uppercase form of its key, and both case-foldings of its key decode to
the same value. -/
theorem digitTable_spec : ∀ p ∈ digitTable, p.2 < 32 ∧
    charOfDigit p.2 = p.1.toUpper ∧
    digitOfChar p.1.toLower = some p.2 ∧
    digitOfChar p.1.toUpper = some p.2 := by
  decide

/-- A decoded digit is a 5-bit value. -/
theorem digitOfChar_lt {c : Char} {d : Nat} (h : digitOfChar c = some d) : d < 32 :=
  (digitTable_spec (c, d) (lookup_mem digitTable h)).1

/-- Re-encoding a decoded digit yields the uppercase form of the character. -/
theorem charOfDigit_digitOfChar {c : Char} {d : Nat} (h : digitOfChar c = some d) :
    charOfDigit d = c.toUpper :=
  (digitTable_spec (c, d) (lookup_mem digitTable h)).2.1

/-- Decoding is unchanged by lowercasing a decodable character. -/
theorem digitOfChar_toLower {c : Char} {d : Nat} (h : digitOfChar c = some d) :
    digitOfChar c.toLower = some d :=
  (digitTable_spec (c, d) (lookup_mem digitTable h)).2.2.1

/-- Decoding is unchanged by uppercasing a decodable character. -/
theorem digitOfChar_toUpper {c : Char} {d : Nat} (h : digitOfChar c = some d) :
    digitOfChar c.toUpper = some d :=
  (digitTable_spec (c, d) (lookup_mem digitTable h)).2.2.2

/-! Lemmas about `decodeDigits` and the encode/decode round trips. -/

/-- Decoding the rendered characters of 5-bit digits reads the digits back. -/
theorem decodeDigits_map_charOfDigit :
    ∀ (ds : List Nat), (∀ d ∈ ds, d < 32) → decodeDigits (ds.map charOfDigit) = .ok ds
  | [], _ => rfl
  | d :: ds, h => by
    have hd : digitOfChar (charOfDigit d) = some d :=
      digitOfChar_charOfDigit d (h d (List.mem_cons_self d ds))
    have hrest : decodeDigits (ds.map charOfDigit) = .ok ds :=
      decodeDigits_map_charOfDigit ds (fun x hx => h x (List.mem_cons_of_mem d hx))
    simp only [List.map_cons, decodeDigits, hd, hrest]

/-- Inversion for a successful `decodeDigits`: the digit list has the same
length, every digit is a 5-bit value, re-rendering the digits uppercases the
input, and either case-folding of the input decodes to the same digits. -/
theorem decodeDigits_ok :
    ∀ (cs : List Char) (ds : List Nat), decodeDigits cs = .ok ds →
      ds.length = cs.length ∧ (∀ d ∈ ds, d < 32) ∧
      ds.map charOfDigit = cs.map Char.toUpper ∧
      decodeDigits (cs.map Char.toLower) = .ok ds ∧
      decodeDigits (cs.map Char.toUpper) = .ok ds := by
  intro cs
  induction cs with
  | nil =>
    intro ds h
    simp only [decodeDigits, Except.ok.injEq] at h
    subst h
    simp [decodeDigits]
  | cons c cs ih =>
    intro ds h
    cases hc : digitOfChar c with
    | none => simp [decodeDigits, hc] at h
    | some d =>
      cases hrest : decodeDigits cs with
      | error e => simp [decodeDigits, hc, hrest] at h
      | ok ds' =>
        simp only [decodeDigits, hc, hrest, Except.ok.injEq] at h
        subst h
        obtain ⟨ih1, ih2, ih3, ih4, ih5⟩ := ih ds' hrest
        refine ⟨by simp [ih1], ?_, ?_, ?_, ?_⟩
        · intro x hx
          rcases List.mem_cons.1 hx with h1 | h1
          · subst h1; exact digitOfChar_lt hc
          · exact ih2 x h1
        · simp only [List.map_cons, ih3, charOfDigit_digitOfChar hc]
        · simp only [List.map_cons, decodeDigits, digitOfChar_toLower hc, ih4]
        · simp only [List.map_cons, decodeDigits, digitOfChar_toUpper hc, ih5]

/-- Any failure of `decodeDigits` is an InvalidCharacter failure. -/
theorem decodeDigits_error :
    ∀ (cs : List Char) (e : UlidError), decodeDigits cs = .error e →
      e = UlidError.invalidCharacter := by
  intro cs
  induction cs with
  | nil => intro e h; simp [decodeDigits] at h
  | cons c cs ih =>
    intro e h
    cases hc : digitOfChar c with
    | none =>
      simp only [decodeDigits, hc, Except.error.injEq] at h
      exact h.symm
    | some d =>
      cases hrest : decodeDigits cs with
      | error e' =>
        simp only [decodeDigits, hc, hrest, Except.error.injEq] at h
        exact h ▸ ih e' hrest
      | ok ds => simp [decodeDigits, hc, hrest] at h

/-- A character outside the alphabet makes `decodeDigits` fail with
InvalidCharacter. -/
theorem decodeDigits_invalid :
    ∀ (cs : List Char), (∃ c ∈ cs, digitOfChar c = none) →
      decodeDigits cs = .error .invalidCharacter := by
  intro cs
  induction cs with
  | nil => intro h; simp at h
  | cons c cs ih =>
    intro h
    cases hc : digitOfChar c with
    | none => simp [decodeDigits, hc]
    | some d =>
      obtain ⟨x, hx, hxn⟩ := h
      rcases List.mem_cons.1 hx with h1 | h1
      · subst h1; rw [hc] at hxn; cases hxn
      · simp [decodeDigits, hc, ih ⟨x, h1, hxn⟩]

/-- Inversion for a successful `decode`. -/
theorem decode_ok {s : String} {v : Nat} (h : decode s = .ok v) :
    ∃ ds, s.toList.length = 26 ∧ decodeDigits s.toList = .ok ds ∧
      ds.headD 0 < 8 ∧ v = digitsToNat ds := by
  unfold decode at h
  by_cases h26 : s.toList.length ≠ 26
  · rw [if_pos h26] at h; exact (Except.noConfusion h)
  · rw [if_neg h26] at h
    push_neg at h26
    cases hds : decodeDigits s.toList with
    | error e => rw [hds] at h; exact (Except.noConfusion h)
    | ok ds =>
      rw [hds] at h
      dsimp only at h
      by_cases hh : 8 ≤ ds.headD 0
      · rw [if_pos hh] at h; exact (Except.noConfusion h)
      · rw [if_neg hh] at h
        refine ⟨ds, h26, rfl, by omega, ?_⟩
        injection h with h
        exact h.symm

/-- Round trip from value to text and back: decoding an encoding of any
128-bit value recovers the value. -/
theorem decode_encode {v : Nat} (hv : v < 2 ^ 128) : decode (encode v) = .ok v := by
  have hlist : (encode v).toList = (natToDigits 26 v).map charOfDigit := rfl
  have h32 : v < 32 ^ 26 := lt_of_lt_of_le hv (by norm_num)
  have hlen : ((natToDigits 26 v).map charOfDigit).length = 26 := by
    simp [natToDigits_length]
  have hdec := decodeDigits_map_charOfDigit (natToDigits 26 v) (natToDigits_all_lt 26 v h32)
  have hhead : ¬ (8 ≤ (natToDigits 26 v).headD 0) := by
    have he : natToDigits 26 v = v / 32 ^ 25 :: natToDigits 25 (v % 32 ^ 25) := rfl
    rw [he, List.headD_cons]
    have hd : v < 32 ^ 25 * 8 := lt_of_lt_of_le hv (by norm_num)
    have := Nat.div_lt_of_lt_mul hd
    omega
  unfold decode
  rw [hlist]
  simp only [hlen, ne_eq, not_true_eq_false, not_false_eq_true, if_neg, hdec, hhead,
    if_false, reduceIte, digitsToNat_natToDigits 26 v h32]

/-- Round trip from text to value and back: re-encoding a decoded value
yields exactly the uppercase form of the input. -/
theorem encode_decode {s : String} {v : Nat} (h : decode s = .ok v) :
    encode v = upperStr s := by
  obtain ⟨ds, h26, hds, hh, hv⟩ := decode_ok h
  obtain ⟨hlen, hlt, hmap, _, _⟩ := decodeDigits_ok _ _ hds
  have hnd : natToDigits 26 v = ds := by
    rw [hv]
    exact natToDigits_digitsToNat ds 26 (by rw [hlen, h26]) hlt
  unfold encode upperStr
  rw [hnd]
  exact congrArg String.mk hmap

/-- Decoding is invariant under case-folding of a valid input. -/
theorem decode_casefold {s : String} {v : Nat} (h : decode s = .ok v) :
    decode (lowerStr s) = .ok v ∧ decode (upperStr s) = .ok v := by
  obtain ⟨ds, h26, hds, hh, hv⟩ := decode_ok h
  obtain ⟨hlen, hlt, hmap, hlow, hup⟩ := decodeDigits_ok _ _ hds
  have hlowlist : (lowerStr s).toList = s.toList.map Char.toLower := rfl
  have huplist : (upperStr s).toList = s.toList.map Char.toUpper := rfl
  constructor
  · unfold decode
    rw [hlowlist]
    simp only [List.length_map, h26, ne_eq, not_true_eq_false, not_false_eq_true,
      if_neg, hlow, hh, Nat.not_le.2 hh, if_false, reduceIte, hv]
  · unfold decode
    rw [huplist]
    simp only [List.length_map, h26, ne_eq, not_true_eq_false, not_false_eq_true,
      if_neg, hup, hh, Nat.not_le.2 hh, if_false, reduceIte, hv]

/-! Generator lemmas. -/

/-- Inversion for a successful generate call: the produced value is stored
as the new previous state, and the call either freshly composed the value
from a requested timestamp strictly newer than the previous one, or
incremented the 128-bit previous value by exactly one. -/
theorem generate_ok_cases {prev : Option Nat} {req rand : Nat} {st : Option Nat} {v : Nat}
    (h : generate prev req rand = (st, .ok v)) :
    st = some v ∧
      ((v = req * 2 ^ 80 + rand % 2 ^ 80 ∧ req < 2 ^ 48 ∧
          (∀ p, prev = some p → ulidTimestamp p < req)) ∨
        (∃ p, prev = some p ∧ v = p + 1)) := by
  cases prev with
  | none =>
    rw [generate, join] at h
    split at h
    · rename_i w heq
      split at heq
      · exact absurd heq (by simp)
      · rename_i h48
        injection heq with heq
        simp only [Prod.mk.injEq, Except.ok.injEq] at h
        obtain ⟨h1, h2⟩ := h
        subst h2
        exact ⟨h1.symm, Or.inl ⟨heq.symm, by omega, by simp⟩⟩
    · simp at h
  | some p =>
    rw [generate] at h
    split at h
    · rename_i ht
      rw [join] at h
      split at h
      · rename_i w heq
        split at heq
        · exact absurd heq (by simp)
        · rename_i h48
          injection heq with heq
          simp only [Prod.mk.injEq, Except.ok.injEq] at h
          obtain ⟨h1, h2⟩ := h
          subst h2
          refine ⟨h1.symm, Or.inl ⟨heq.symm, by omega, ?_⟩⟩
          intro q hq
          injection hq with hq
          subst hq
          exact ht
      · simp at h
    · rename_i ht
      split at h
      · simp at h
      · simp only [Prod.mk.injEq, Except.ok.injEq] at h
        obtain ⟨h1, h2⟩ := h
        subst h2
        exact ⟨h1.symm, Or.inr ⟨p, rfl, rfl⟩⟩

/-- A successful generate call stores the produced value as the new
previous state. -/
theorem generate_ok_state {prev : Option Nat} {req rand : Nat} {st : Option Nat} {v : Nat}
    (h : generate prev req rand = (st, .ok v)) : st = some v :=
  (generate_ok_cases h).1

/-- A successful generate call strictly increases past the previous value. -/
theorem generate_ok_gt {p : Nat} {req rand : Nat} {st : Option Nat} {v : Nat}
    (h : generate (some p) req rand = (st, .ok v)) : p < v := by
  rcases (generate_ok_cases h).2 with ⟨hv, _, hlt⟩ | ⟨q, hq, hv⟩
  · have ht : ulidTimestamp p < req := hlt p rfl
    rw [ulidTimestamp] at ht
    have h80 : (2 : Nat) ^ 80 = 1208925819614629174706176 := by norm_num
    rw [h80] at ht hv
    omega
  · injection hq with hq
    omega

/-- Strict monotonicity of a successful run: the collected outputs are
pairwise strictly increasing, and all exceed any value already held as the
previous state. -/
theorem runGen_ok_pairwise :
    ∀ (l : List (Nat × Nat)) (prev st : Option Nat) (vs : List Nat),
      runGen prev l = (st, .ok vs) →
      vs.Pairwise (· < ·) ∧ ∀ p, prev = some p → ∀ v ∈ vs, p < v := by
  intro l
  induction l with
  | nil =>
    intro prev st vs h
    simp only [runGen, Prod.mk.injEq, Except.ok.injEq] at h
    obtain ⟨h1, h2⟩ := h
    subst h2
    exact ⟨List.Pairwise.nil, by simp⟩
  | cons pr rest ih =>
    intro prev st vs h
    obtain ⟨req, rand⟩ := pr
    rw [runGen] at h
    cases hg : generate prev req rand with
    | mk st1 res =>
      cases res with
      | error e => rw [hg] at h; dsimp only at h; simp at h
      | ok v =>
        rw [hg] at h
        dsimp only at h
        cases hr : runGen st1 rest with
        | mk st2 res2 =>
          cases res2 with
          | error e => rw [hr] at h; dsimp only at h; simp at h
          | ok vs' =>
            rw [hr] at h
            dsimp only at h
            simp only [Prod.mk.injEq, Except.ok.injEq] at h
            obtain ⟨h1, h2⟩ := h
            subst h2
            have hst1 : st1 = some v := generate_ok_state hg
            obtain ⟨ihp, ihgt⟩ := ih st1 st2 vs' hr
            have hvlt : ∀ w ∈ vs', v < w := ihgt v hst1
            constructor
            · exact List.Pairwise.cons hvlt ihp
            · intro p hp w hw
              rcases List.mem_cons.1 hw with h3 | h3
              · subst h3
                exact generate_ok_gt (hp ▸ hg)
              · exact lt_trans (generate_ok_gt (hp ▸ hg)) (hvlt w h3)

/-- Inversion for a failing generate call: the previous state is returned
unchanged, and the failure is either RandomOverflow at a saturated random
field when the requested timestamp is not newer, or TimestampOverflow when
a fresh composition was requested beyond 48 bits. -/
theorem generate_error_cases {prev : Option Nat} {req rand : Nat} {st : Option Nat}
    {e : UlidError} (h : generate prev req rand = (st, .error e)) :
    st = prev ∧
      ((e = .randomOverflow ∧ ∃ p, prev = some p ∧ ulidRandom p = 2 ^ 80 - 1 ∧
          ¬ ulidTimestamp p < req) ∨
        (e = .timestampOverflow ∧ 2 ^ 48 ≤ req)) := by
  cases prev with
  | none =>
    rw [generate, join] at h
    split at h
    · simp at h
    · rename_i e' heq
      simp only [Prod.mk.injEq, Except.error.injEq] at h
      obtain ⟨h1, h2⟩ := h
      subst h2
      split at heq
      · injection heq with heq
        exact ⟨h1.symm, Or.inr ⟨heq.symm, by assumption⟩⟩
      · exact absurd heq (by simp)
  | some p =>
    rw [generate] at h
    split at h
    · rename_i ht
      rw [join] at h
      split at h
      · simp at h
      · rename_i e' heq
        simp only [Prod.mk.injEq, Except.error.injEq] at h
        obtain ⟨h1, h2⟩ := h
        subst h2
        split at heq
        · injection heq with heq
          exact ⟨h1.symm, Or.inr ⟨heq.symm, by assumption⟩⟩
        · exact absurd heq (by simp)
    · rename_i ht
      split at h
      · rename_i hrand
        simp only [Prod.mk.injEq, Except.error.injEq] at h
        obtain ⟨h1, h2⟩ := h
        exact ⟨h1.symm, Or.inl ⟨h2.symm, p, rfl, hrand, ht⟩⟩
      · simp at h

/-- Direct computation of the overflow boundary: a previous value with
saturated random field and the same pinned timestamp fails with
RandomOverflow and keeps the state. -/
theorem generate_overflow (T r : Nat) :
    generate (some (T * 2 ^ 80 + (2 ^ 80 - 1))) T r
      = (some (T * 2 ^ 80 + (2 ^ 80 - 1)), .error .randomOverflow) := by
  have h80 : (2 : Nat) ^ 80 = 1208925819614629174706176 := by norm_num
  rw [generate]
  have ht : ¬ ulidTimestamp (T * 2 ^ 80 + (2 ^ 80 - 1)) < T := by
    rw [ulidTimestamp, h80]
    omega
  rw [if_neg ht]
  have hr : ulidRandom (T * 2 ^ 80 + (2 ^ 80 - 1)) = 2 ^ 80 - 1 := by
    rw [ulidRandom, h80]
    omega
  rw [if_pos hr]

/-- The arithmetic composition used by `join` agrees with the bitwise
composition (timestamp <<< 80) ||| random for an 80-bit random field. -/
theorem join_eq_or {t r : Nat} (hr : r < 2 ^ 80) : t <<< 80 ||| r = t * 2 ^ 80 + r := by
  have h := Nat.mul_add_lt_is_or hr t
  rw [Nat.shiftLeft_eq, Nat.mul_comm t (2 ^ 80)]
  exact h.symm

/-- A successful run of the generate_ulids loop prints one line per
requested ULID. -/
theorem genUlidsGo_length (pin : Option Nat) (clock rand : Nat → Nat) (lc : Bool) :
    ∀ (n i : Nat) (st : Option Nat) (lines : List String),
      genUlidsGo pin clock rand lc n i st = .ok lines → lines.length = n := by
  intro n
  induction n with
  | zero =>
    intro i st lines h
    simp only [genUlidsGo, Except.ok.injEq] at h
    rw [← h]
    rfl
  | succ n ih =>
    intro i st lines h
    rw [genUlidsGo] at h
    cases hg : generate st (pinOr pin clock i) (rand i) with
    | mk st1 res =>
      rw [hg] at h
      cases res with
      | error e => simp at h
      | ok v =>
        dsimp only at h
        cases hr : genUlidsGo pin clock rand lc n (i + 1) st1 with
        | error e => rw [hr] at h; simp at h
        | ok rest =>
          rw [hr] at h
          simp only [Except.ok.injEq] at h
          rw [← h]
          simp [ih (i + 1) st1 rest hr]

/-- Rendering a 5-bit digit already yields an uppercase character. -/
theorem charOfDigit_toUpper_self : ∀ d, d < 32 → (charOfDigit d).toUpper = charOfDigit d := by
  decide

/-! The claims. -/

/-- C1: for a generator instance and any sequence of generate calls with
non-decreasing pinned timestamps, the returned values of a successful run
form a strictly increasing sequence of 128-bit unsigned integers, even when
consecutive calls pin the exact same millisecond timestamp. -/
theorem C1_monotonicity (l : List (Nat × Nat)) (st : Option Nat) (vs : List Nat)
    (hmono : List.Pairwise (· ≤ ·) (l.map Prod.fst))
    (h : runGen none l = (st, .ok vs)) :
    List.Pairwise (· < ·) vs :=
  (runGen_ok_pairwise l none st vs h).1

/-- Witness for C1: a run of three calls pinning timestamps 1000, 1000,
2000, the first two sharing the same millisecond. -/
theorem C1_witness :
    List.Pairwise (· ≤ ·) ([((1000 : Nat), (5 : Nat)), (1000, 9), (2000, 7)].map Prod.fst) ∧
    List.Pairwise (· < ·)
      [1000 * 2 ^ 80 + 5, 1000 * 2 ^ 80 + 6, 2000 * 2 ^ 80 + 7] :=
  ⟨by decide,
   C1_monotonicity [(1000, 5), (1000, 9), (2000, 7)] (some (2000 * 2 ^ 80 + 7))
     [1000 * 2 ^ 80 + 5, 1000 * 2 ^ 80 + 6, 2000 * 2 ^ 80 + 7] (by decide) (by rfl)⟩

/-- C2: encoding and decoding round-trip losslessly: decoding an encoding
recovers every valid 128-bit value, and re-encoding a decoded 26-character
base-32 string (any letter case) yields exactly its uppercase form. -/
theorem C2_roundtrip :
    (∀ v : Nat, v < 2 ^ 128 → decode (encode v) = .ok v) ∧
    (∀ (s : String) (v : Nat), decode s = .ok v → encode v = upperStr s) :=
  ⟨fun _ hv => decode_encode hv, fun _ _ h => encode_decode h⟩

/-- Witness for C2: the round trip at the value 123456789 and at the
lowercase string form of a well-known ULID. -/
theorem C2_witness :
    decode (encode 123456789) = .ok 123456789 ∧
    encode 1777027686520646174104517696511196507
      = upperStr "01arz3ndektsv4rrffq69g5fav" :=
  ⟨C2_roundtrip.1 123456789 (by norm_num),
   C2_roundtrip.2 "01arz3ndektsv4rrffq69g5fav" 1777027686520646174104517696511196507 (by rfl)⟩

/-- C3: a generator whose previous value has random field 2^80 - 1 and
timestamp field T fails with RandomOverflow when asked to generate at the
pinned timestamp T, returns no value and leaves the state unchanged; and
for any in-range timestamp RandomOverflow is the only error condition of
generate. -/
theorem C3_overflow :
    (∀ T r : Nat, T < 2 ^ 48 →
      generate (some (T * 2 ^ 80 + (2 ^ 80 - 1))) T r
        = (some (T * 2 ^ 80 + (2 ^ 80 - 1)), .error .randomOverflow)) ∧
    (∀ (prev st : Option Nat) (req rand : Nat) (e : UlidError), req < 2 ^ 48 →
      generate prev req rand = (st, .error e) →
      e = .randomOverflow ∧ st = prev) := by
  constructor
  · intro T r _
    exact generate_overflow T r
  · intro prev st req rand e h48 h
    obtain ⟨hst, hcases⟩ := generate_error_cases h
    rcases hcases with ⟨he, _⟩ | ⟨_, habs⟩
    · exact ⟨he, hst⟩
    · omega

/-- Witness for C3: the saturated state at previous timestamp 5. -/
theorem C3_witness :
    generate (some (5 * 2 ^ 80 + (2 ^ 80 - 1))) 5 0
      = (some (5 * 2 ^ 80 + (2 ^ 80 - 1)), .error .randomOverflow) ∧
    (UlidError.randomOverflow = UlidError.randomOverflow ∧
      (some (5 * 2 ^ 80 + (2 ^ 80 - 1)) : Option Nat) = some (5 * 2 ^ 80 + (2 ^ 80 - 1))) :=
  ⟨C3_overflow.1 5 0 (by norm_num),
   C3_overflow.2 (some (5 * 2 ^ 80 + (2 ^ 80 - 1))) (some (5 * 2 ^ 80 + (2 ^ 80 - 1)))
     5 0 .randomOverflow (by norm_num) (C3_overflow.1 5 0 (by norm_num))⟩

/-- C4: two consecutive generate calls on a fresh generator pinned at
timestamp 1000 (with the injected fresh random payload below 2^80 - 1)
return two values whose timestamp fields are both 1000 and whose 80-bit
random fields differ by exactly one, the second being the first plus one. -/
theorem C4_same_ms (r1 r2 : Nat) (h1 : r1 < 2 ^ 80 - 1) :
    ∃ st1 st2 v1 v2,
      generate none 1000 r1 = (st1, .ok v1) ∧
      generate st1 1000 r2 = (st2, .ok v2) ∧
      ulidTimestamp v1 = 1000 ∧ ulidTimestamp v2 = 1000 ∧
      ulidRandom v2 = ulidRandom v1 + 1 := by
  have h80 : (2 : Nat) ^ 80 = 1208925819614629174706176 := by norm_num
  rw [h80] at h1
  have hr1 : r1 % 2 ^ 80 = r1 := Nat.mod_eq_of_lt (by rw [h80]; omega)
  refine ⟨some (1000 * 2 ^ 80 + r1), some (1000 * 2 ^ 80 + r1 + 1),
    1000 * 2 ^ 80 + r1, 1000 * 2 ^ 80 + r1 + 1, ?_, ?_, ?_, ?_, ?_⟩
  · rw [generate, join, if_neg (by norm_num), hr1]
  · rw [generate]
    have ht : ¬ ulidTimestamp (1000 * 2 ^ 80 + r1) < 1000 := by
      rw [ulidTimestamp, h80]
      omega
    rw [if_neg ht]
    have hrand : ¬ ulidRandom (1000 * 2 ^ 80 + r1) = 2 ^ 80 - 1 := by
      rw [ulidRandom, h80]
      omega
    rw [if_neg hrand]
  · rw [ulidTimestamp, h80]
    omega
  · rw [ulidTimestamp, h80]
    omega
  · simp only [ulidRandom, h80]
    omega

/-- Witness for C4: injected random payloads 5 and 123. -/
theorem C4_witness :
    ∃ st1 st2 v1 v2,
      generate none 1000 5 = (st1, .ok v1) ∧
      generate st1 1000 123 = (st2, .ok v2) ∧
      ulidTimestamp v1 = 1000 ∧ ulidTimestamp v2 = 1000 ∧
      ulidRandom v2 = ulidRandom v1 + 1 :=
  C4_same_ms 5 123 (by norm_num)

/-- C5: join fails with TimestampOverflow for every timestamp exceeding
2^48 - 1; for every 48-bit timestamp it is the pure composition
(timestamp <<< 80) ||| random; and a pinned timestamp above the 48-bit
range supplied to generation is rejected rather than silently truncated. -/
theorem C5_timestamp_overflow :
    (∀ t r : Nat, 2 ^ 48 - 1 < t → join t r = .error .timestampOverflow) ∧
    (∀ t r : Nat, t < 2 ^ 48 → r < 2 ^ 80 → join t r = .ok (t <<< 80 ||| r)) ∧
    (∀ (prev : Option Nat) (t r : Nat), 2 ^ 48 ≤ t →
      (∀ p, prev = some p → ulidTimestamp p < t) →
      (generate prev t r).2 = .error .timestampOverflow) := by
  refine ⟨?_, ?_, ?_⟩
  · intro t r h
    rw [join, if_pos (by omega)]
  · intro t r ht hr
    rw [join, if_neg (by omega), join_eq_or hr]
  · intro prev t r ht hinv
    cases prev with
    | none => rw [generate, join, if_pos ht]
    | some p =>
      rw [generate, if_pos (hinv p rfl), join, if_pos ht]

/-- Witness for C5: the timestamp 2^48 is rejected by join and by
generation from a fresh generator; the timestamp 1000 composes purely. -/
theorem C5_witness :
    join (2 ^ 48) 0 = .error .timestampOverflow ∧
    join 1000 5 = .ok (1000 <<< 80 ||| 5) ∧
    (generate none (2 ^ 48) 0).2 = .error .timestampOverflow :=
  ⟨C5_timestamp_overflow.1 (2 ^ 48) 0 (by norm_num),
   C5_timestamp_overflow.2.1 1000 5 (by norm_num) (by norm_num),
   C5_timestamp_overflow.2.2 none (2 ^ 48) 0 (by norm_num) (by simp)⟩

/-- C6: decode fails with InvalidLength for every input whose length is not
exactly 26 characters, and with InvalidCharacter for every 26-character
input containing a character outside the Crockford base-32 alphabet. -/
theorem C6_decode_rejection :
    (∀ s : String, s.toList.length ≠ 26 → decode s = .error .invalidLength) ∧
    (∀ s : String, s.toList.length = 26 → (∃ c ∈ s.toList, digitOfChar c = none) →
      decode s = .error .invalidCharacter) := by
  constructor
  · intro s h
    rw [decode, if_pos h]
  · intro s h26 hc
    rw [decode, if_neg (by omega), decodeDigits_invalid s.toList hc]

/-- Witness for C6: the empty string and a well-formed 25-character string
are rejected for length; 26 copies of the excluded letter I are rejected
for character. -/
theorem C6_witness :
    decode "" = .error .invalidLength ∧
    decode "0123456789ABCDEFGHJKMNPQR" = .error .invalidLength ∧
    decode "IIIIIIIIIIIIIIIIIIIIIIIIII" = .error .invalidCharacter :=
  ⟨C6_decode_rejection.1 "" (by decide),
   C6_decode_rejection.1 "0123456789ABCDEFGHJKMNPQR" (by decide),
   C6_decode_rejection.2 "IIIIIIIIIIIIIIIIIIIIIIIIII" (by decide) (by decide)⟩

/-- C7: decode is case-insensitive: for every syntactically valid
26-character base-32 input, its lowercase and uppercase renderings decode
to the same 128-bit value as the input itself. -/
theorem C7_case_insensitive (s : String) (v : Nat) (h : decode s = .ok v) :
    decode (lowerStr s) = .ok v ∧ decode (upperStr s) = .ok v :=
  decode_casefold h

/-- Witness for C7: the two case renderings of 01ARZ3NDEKTSV4RRFFQ69G5FAV
decode to the identical value. -/
theorem C7_witness :
    lowerStr "01ARZ3NDEKTSV4RRFFQ69G5FAV" = "01arz3ndektsv4rrffq69g5fav" ∧
    decode "01arz3ndektsv4rrffq69g5fav" = .ok 1777027686520646174104517696511196507 ∧
    decode "01ARZ3NDEKTSV4RRFFQ69G5FAV" = .ok 1777027686520646174104517696511196507 := by
  refine ⟨rfl, ?_, by rfl⟩
  have h := (C7_case_insensitive "01ARZ3NDEKTSV4RRFFQ69G5FAV"
    1777027686520646174104517696511196507 (by rfl)).1
  rw [show lowerStr "01ARZ3NDEKTSV4RRFFQ69G5FAV" = "01arz3ndektsv4rrffq69g5fav" from rfl] at h
  exact h

/-- C8: the default rendering of every ULID value is its canonical
uppercase 26-character encoding, and the lowercase rendering is exactly the
character-by-character lowercase of that same canonical uppercase encoding,
still denoting the same underlying 128-bit value. -/
theorem C8_lowercase (v : Nat) (hv : v < 2 ^ 128) :
    formatUlid v false = encode v ∧
    formatUlid v true = lowerStr (encode v) ∧
    upperStr (encode v) = encode v ∧
    (encode v).toList.length = 26 ∧
    decode (formatUlid v true) = .ok v := by
  have h32 : v < 32 ^ 26 := lt_of_lt_of_le hv (by norm_num)
  refine ⟨rfl, rfl, ?_, ?_, ?_⟩
  · show String.mk ((encode v).toList.map Char.toUpper) = encode v
    have hlist : (encode v).toList = (natToDigits 26 v).map charOfDigit := rfl
    rw [hlist, List.map_map]
    show String.mk _ = String.mk _
    congr 1
    apply List.map_congr_left
    intro d hd
    exact charOfDigit_toUpper_self d (natToDigits_all_lt 26 v h32 d hd)
  · show ((natToDigits 26 v).map charOfDigit).length = 26
    simp [natToDigits_length]
  · show decode (lowerStr (encode v)) = .ok v
    exact (decode_casefold (decode_encode hv)).1

/-- Witness for C8 at the value 123456789. -/
theorem C8_witness :
    formatUlid 123456789 false = encode 123456789 ∧
    formatUlid 123456789 true = lowerStr (encode 123456789) ∧
    upperStr (encode 123456789) = encode 123456789 ∧
    (encode 123456789).toList.length = 26 ∧
    decode (formatUlid 123456789 true) = .ok 123456789 :=
  C8_lowercase 123456789 (by norm_num)

/-- C9: the CLI layer rejects, before any generation, every parsed RFC 3339
datetime whose millisecond timestamp is negative, and resolves every
non-negative one to exactly UNIX_EPOCH plus that many milliseconds. -/
theorem C9_epoch_underflow (m : Int) :
    (m < 0 → ∃ msg, resolveDatetimeMillis m = .error msg) ∧
    (0 ≤ m → resolveDatetimeMillis m = .ok m.toNat) := by
  constructor
  · intro h
    exact ⟨_, by rw [resolveDatetimeMillis, if_pos h]⟩
  · intro h
    rw [resolveDatetimeMillis, if_neg (by omega)]

/-- Witness for C9: minus five milliseconds is rejected, one thousand
milliseconds resolves to the epoch plus one second. -/
theorem C9_witness :
    (∃ msg, resolveDatetimeMillis (-5) = .error msg) ∧
    resolveDatetimeMillis 1000 = .ok 1000 :=
  ⟨(C9_epoch_underflow (-5)).1 (by norm_num),
   (C9_epoch_underflow 1000).2 (by norm_num)⟩

/-- C10: with requested count 0 generate_ulids performs no generation call,
prints no ULIDs and succeeds, the freshly created generator state untouched;
in general a successful run prints exactly count lines, one ULID each. -/
theorem C10_count (pin : Option Nat) (clock rand : Nat → Nat) (lc : Bool) :
    generate_ulids 0 pin clock rand lc = .ok [] ∧
    ∀ (count : Nat) (lines : List String),
      generate_ulids count pin clock rand lc = .ok lines → lines.length = count := by
  refine ⟨rfl, ?_⟩
  intro count lines h
  exact genUlidsGo_length pin clock rand lc count 0 none lines h

/-- Witness for C10: the empty run, and a pinned run of three lowercase
lines. -/
theorem C10_witness :
    generate_ulids 0 (some 1000) (fun _ => 0) (fun i => i) true = .ok [] ∧
    (["00000000z80000000000000000", "00000000z80000000000000001",
      "00000000z80000000000000002"] : List String).length = 3 :=
  ⟨(C10_count (some 1000) (fun _ => 0) (fun i => i) true).1,
   (C10_count (some 1000) (fun _ => 0) (fun i => i) true).2 3
     ["00000000z80000000000000000", "00000000z80000000000000001",
      "00000000z80000000000000002"] (by rfl)⟩

end MkUlid
